import Mathlib

/-!
Verification of the retrieval-augmented answer pipeline of the
football-tactics chatbot (`src/llm/get_question_answer.py`, class `FootballQA`).

Strings are modelled as `List Char`.  The Python text operations used by the
pipeline are embedded as structurally recursive Lean functions:

* `splitOnNL`    — `str.split('\n')`
* `strip`        — `str.strip()` (ASCII whitespace; `str.strip` also removes a
                   few Unicode space characters, which are not modelled)
* `joinSep`      — `sep.join(list)`
* `replaceDotSpace` — `str.replace('. ', '.\n\n')` (left-to-right,
                   non-overlapping, exactly as Python's `str.replace`)
* `numRepr`      — decimal rendering of a natural number, as an f-string does

On top of these, `cleanResponse`, `formatContext`, `renderPrompt` and the
`getAnswer` variants embed `FootballQA._clean_response`,
`FootballQA._format_context`, the `prompt_template` and `FootballQA.get_answer`.
-/

set_option autoImplicit false

/-- The ASCII whitespace characters removed by Python's `str.strip()`. -/
def isPySpace (c : Char) : Bool :=
  c == ' ' || c == '\t' || c == '\n' || c == '\r' || c == '\x0B' || c == '\x0C'

/-- Python's `str.split('\n')`: split on every newline, keeping empty pieces;
the result is always nonempty. -/
def splitOnNL : List Char → List (List Char)
  | [] => [[]]
  | c :: r =>
    if c = '\n' then [] :: splitOnNL r
    else (c :: (splitOnNL r).headI) :: (splitOnNL r).tail

/-- Python's `str.strip()`: drop leading and trailing whitespace. -/
def strip (l : List Char) : List Char :=
  (((l.dropWhile isPySpace).reverse).dropWhile isPySpace).reverse

/-- Python's `sep.join(pieces)`. -/
def joinSep (sep : List Char) : List (List Char) → List Char
  | [] => []
  | [x] => x
  | x :: y :: ys => x ++ sep ++ joinSep sep (y :: ys)

/-- Python's `str.replace('. ', '.\n\n')`: scan left to right, rewriting each
non-overlapping occurrence of `". "` to `".\n\n"`. -/
def replaceDotSpace : List Char → List Char
  | [] => []
  | [c] => [c]
  | c :: d :: r =>
    if c = '.' ∧ d = ' ' then '.' :: '\n' :: '\n' :: replaceDotSpace r
    else c :: replaceDotSpace (d :: r)

/-- The line list built by `FootballQA._clean_response`:
`[line.strip() for line in response.split('\n') if line.strip()]`. -/
def cleanLines (response : List Char) : List (List Char) :=
  ((splitOnNL response).filter (fun line => !(strip line).isEmpty)).map strip

/-- `FootballQA._clean_response`: strip and drop blank lines, join the
survivors with single spaces, then replace `". "` by `".\n\n"`. -/
def cleanResponse (response : List Char) : List Char :=
  replaceDotSpace (joinSep [' '] (cleanLines response))

/-- The cleaner as worded by the specification: split on the newline
character, discard lines that are empty after trimming, trim each remaining
line, join with a single space, replace `". "` with `".\n\n"`.  Stated with
`filterMap` (discard-and-trim in one pass) for comparison with
`cleanResponse`. -/
def cleanSpec (raw : List Char) : List Char :=
  replaceDotSpace (joinSep [' ']
    ((splitOnNL raw).filterMap
      (fun line => if (strip line).isEmpty then none else some (strip line))))

/-- The decimal digit character of `n % 10`. -/
def digitChar (n : Nat) : Char :=
  match n % 10 with
  | 0 => '0' | 1 => '1' | 2 => '2' | 3 => '3' | 4 => '4'
  | 5 => '5' | 6 => '6' | 7 => '7' | 8 => '8' | _ => '9'

/-- Decimal digits of `n`, most significant first, with explicit fuel so that
the recursion is structural (the fuel `n + 1` always suffices, since a number
has at most `n + 1` decimal digits). -/
def numReprAux : Nat → Nat → List Char
  | 0, _ => []
  | fuel + 1, n =>
    if n < 10 then [digitChar n]
    else numReprAux fuel (n / 10) ++ [digitChar n]

/-- Decimal rendering of a natural number, as Python's `f"{n}"`. -/
def numRepr (n : Nat) : List Char := numReprAux (n + 1) n

/-- The literal `"Source "` label used by `FootballQA._format_context`. -/
def srcMarker : List Char := ['S', 'o', 'u', 'r', 'c', 'e', ' ']

/-- `FootballQA._format_context`: passages are `page_content` strings;
`"\n\n".join(f"Source {i+1}:\n{doc.page_content}" for i, doc in enumerate(docs))`. -/
def formatContext (contextDocs : List (List Char)) : List Char :=
  joinSep ("\n\n".toList)
    (contextDocs.enum.map
      (fun p => "Source ".toList ++ numRepr (p.1 + 1) ++ ":\n".toList ++ p.2))

/-- The entries of `formatContext` written with an explicit running index, as
the specification words them: the passage at 0-based position `i` (here the
`i`-th element, starting from offset `m`) yields `"Source {i+1}:\n{content}"`. -/
def fmtEntries (m : Nat) : List (List Char) → List (List Char)
  | [] => []
  | d :: ds =>
    ("Source ".toList ++ numRepr (m + 1) ++ ":\n".toList ++ d) :: fmtEntries (m + 1) ds

/-- Text of `prompt_template` before the `context` slot (the template is an
f-string-style template with exactly the two named slots `context` and
`question`; `PromptTemplate.format` splices the two argument strings into the
slots verbatim). -/
def templatePre : List Char :=
  ("\n            You are an expert football tactics analyst specializing in AFC Ajax's men's team. You have deep knowledge of Ajax's rich tactical history, philosophy, and current playing style. Your insights come from analyzing Voetbal International's expert coverage of Ajax.\n\n            Important behavioral guidelines:\n            1. ALWAYS respond in Dutch (Netherlands) language\n            2. Only discuss football-related topics. Politely decline to discuss anything else.\n            3. Always maintain a positive perspective about Ajax. Focus on strengths and opportunities, never criticize.\n            4. Ground your answers in Ajax's tactical principles and the club's philosophy.\n            5. Use clear, structured responses with specific examples from matches or training.\n            6. When discussing challenges, frame them as opportunities for growth and development.\n\n            Use the following context from Voetbal International videos to answer the question:\n            ").toList

/-- Text of `prompt_template` between the `context` slot and the `question`
slot. -/
def templateMid : List Char :=
  ("\n\n            Question: ").toList

/-- Text of `prompt_template` after the `question` slot. -/
def templateSuf : List Char :=
  ("\n\n            If the question is not about football, respond with: \"Ik kan alleen vragen over voetbal beantwoorden. Stel gerust een vraag over Ajax's tactiek!\"\n\n            Remember: Your response must ALWAYS be in Dutch.\n\n            Answer:\n            ").toList

/-- `self.prompt_template.format(context=..., question=...)`: fill the fixed
two-slot template. -/
def renderPrompt (context question : List Char) : List Char :=
  templatePre ++ context ++ templateMid ++ question ++ templateSuf

/-- Record of the external calls made during one `get_answer` invocation:
each `similarity_search` call site logs its `(question, k)` argument pair and
each `llm.invoke` call site logs its prompt argument. -/
structure QATrace where
  searchCalls : List (List Char × Nat)
  modelCalls : List (List Char)
deriving DecidableEq

/-- `FootballQA.get_answer`, instrumented with a call trace.  The collaborators
`search` (`self.faiss_db.similarity_search`) and `invoke` (`self.llm.invoke`,
returning the reply's `content`) are passed as functions; the body mirrors the
Python statements in order, and each of the two external call sites appends
its arguments to the trace exactly once, since each is executed exactly once. -/
def getAnswerTraced (search : List Char → Nat → List (List Char))
    (invoke : List Char → List Char) (question : List Char) (k : Nat) :
    List Char × QATrace :=
  let contextDocs := search question k
  let formattedContext := formatContext contextDocs
  let prompt := renderPrompt formattedContext question
  let response := invoke prompt
  let cleanedResponse := cleanResponse response
  (cleanedResponse, ⟨[(question, k)], [prompt]⟩)

/-- `get_answer` with the default argument `k = 4` of the Python signature
`def get_answer(self, question: str, k: int = 4)`. -/
def getAnswerDefaultK (search : List Char → Nat → List (List Char))
    (invoke : List Char → List Char) (question : List Char) :
    List Char × QATrace :=
  getAnswerTraced search invoke question 4

/-- `FootballQA.get_answer` with fallible collaborators.  Python has no
`try/except` anywhere in the pipeline, so an exception raised by either
external call aborts the remaining statements and propagates: this is exactly
`Except` short-circuiting. -/
def getAnswerExc {ε : Type} (search : List Char → Nat → Except ε (List (List Char)))
    (invoke : List Char → Except ε (List Char)) (question : List Char) (k : Nat) :
    Except ε (List Char) :=
  match search question k with
  | Except.error e => Except.error e
  | Except.ok contextDocs =>
    match invoke (renderPrompt (formatContext contextDocs) question) with
    | Except.error e => Except.error e
    | Except.ok response => Except.ok (cleanResponse response)

/-- Boolean scan for an occurrence of the two-character substring `". "`. -/
def hasDotSpace : List Char → Bool
  | [] => false
  | [_] => false
  | c :: d :: r => (c == '.' && d == ' ') || hasDotSpace (d :: r)

/-- The pieces of `replaceDotSpace j` between the newlines it inserts, for a
newline-free `j` (see `splitOnNL_replaceDotSpace`). -/
def segsRDS : List Char → List (List Char)
  | [] => [[]]
  | [c] => [[c]]
  | c :: d :: r =>
    if c = '.' ∧ d = ' ' then ['.'] :: [] :: segsRDS r
    else (c :: (segsRDS (d :: r)).headI) :: (segsRDS (d :: r)).tail

/-- Does `pat` occur at the head of `s`? -/
def startsWith : List Char → List Char → Bool
  | [], _ => true
  | _ :: _, [] => false
  | c :: p, d :: s => c == d && startsWith p s

/-- The suffixes following each occurrence of `pat` in `s` (one entry per
position of `s` at which `pat` matches). -/
def occAfter (pat : List Char) : List Char → List (List Char)
  | [] => []
  | c :: r =>
    if startsWith pat (c :: r) then List.drop pat.length (c :: r) :: occAfter pat r
    else occAfter pat r

/-- The number of positions of `s` at which `pat` occurs as a substring. -/
def countOcc (pat : List Char) : List Char → Nat
  | [] => 0
  | c :: r => (if startsWith pat (c :: r) then 1 else 0) + countOcc pat r

/-! ### Generic helpers about heads, lasts, `dropWhile`, and `strip` -/

/-- The last character of a string, if any. -/
def lastQ (l : List Char) : Option Char := l.reverse.head?

theorem headQ_append (x y : List Char) (h : x ≠ []) : (x ++ y).head? = x.head? := by
  cases x with
  | nil => exact absurd rfl h
  | cons a t => rfl

theorem lastQ_append (x y : List Char) (h : y ≠ []) : lastQ (x ++ y) = lastQ y := by
  unfold lastQ
  rw [List.reverse_append]
  exact headQ_append _ _ (by simpa using h)

theorem lastQ_reverse (l : List Char) : lastQ l.reverse = l.head? := by
  unfold lastQ
  rw [List.reverse_reverse]

theorem lastQ_eq_some (l : List Char) (h : l ≠ []) : ∃ c, lastQ l = some c := by
  cases hr : l.reverse with
  | nil => exact absurd (by simpa using hr) h
  | cons a t => exact ⟨a, by unfold lastQ; rw [hr]; rfl⟩

theorem dropWhile_head_false (p : Char → Bool) :
    ∀ (l : List Char) (c : Char) (t : List Char), l.dropWhile p = c :: t → p c = false := by
  intro l
  induction l with
  | nil => intro c t h; simp [List.dropWhile] at h
  | cons a l ih =>
    intro c t h
    rw [List.dropWhile_cons] at h
    by_cases hp : p a = true
    · rw [if_pos hp] at h
      exact ih c t h
    · rw [if_neg hp] at h
      cases h
      simpa using hp

theorem mem_dropWhile_of (p : Char → Bool) (c : Char) :
    ∀ l : List Char, c ∈ l → p c = false → c ∈ l.dropWhile p := by
  intro l
  induction l with
  | nil => intro h _; exact absurd h (List.not_mem_nil c)
  | cons a l ih =>
    intro hmem hc
    rw [List.dropWhile_cons]
    by_cases hp : p a = true
    · rw [if_pos hp]
      rcases List.mem_cons.mp hmem with rfl | h
      · exact absurd hp (by simp [hc])
      · exact ih h hc
    · rw [if_neg hp]
      exact hmem

theorem mem_of_mem_dropWhile (p : Char → Bool) (c : Char) :
    ∀ l : List Char, c ∈ l.dropWhile p → c ∈ l := by
  intro l
  induction l with
  | nil => intro h; simp at h
  | cons a l ih =>
    intro h
    rw [List.dropWhile_cons] at h
    by_cases hp : p a = true
    · rw [if_pos hp] at h
      exact List.mem_cons_of_mem a (ih h)
    · rw [if_neg hp] at h
      exact h

theorem dropWhile_eq_self_of (p : Char → Bool) (l : List Char)
    (h : ∀ a, l.head? = some a → p a = false) : l.dropWhile p = l := by
  cases l with
  | nil => rfl
  | cons a t =>
    rw [List.dropWhile_cons, if_neg (by simp [h a rfl])]

theorem lastQ_dropWhile (p : Char → Bool) :
    ∀ l : List Char, l.dropWhile p ≠ [] → lastQ (l.dropWhile p) = lastQ l := by
  intro l
  induction l with
  | nil => intro h; exact absurd rfl h
  | cons a t ih =>
    intro h
    rw [List.dropWhile_cons] at h ⊢
    by_cases hp : p a = true
    · rw [if_pos hp] at h ⊢
      have ht : t ≠ [] := by
        intro he
        rw [he] at h
        exact h rfl
      rw [ih h]
      exact (lastQ_append [a] t ht).symm
    · rw [if_neg hp]

theorem strip_nil : strip [] = [] := rfl

theorem mem_of_mem_strip (c : Char) (l : List Char) (h : c ∈ strip l) : c ∈ l := by
  unfold strip at h
  rw [List.mem_reverse] at h
  have h1 := mem_of_mem_dropWhile _ _ _ h
  rw [List.mem_reverse] at h1
  exact mem_of_mem_dropWhile _ _ _ h1

theorem mem_strip_of_mem (c : Char) (l : List Char) (hm : c ∈ l) (hc : isPySpace c = false) :
    c ∈ strip l := by
  unfold strip
  rw [List.mem_reverse]
  apply mem_dropWhile_of _ _ _ _ hc
  rw [List.mem_reverse]
  exact mem_dropWhile_of _ _ _ hm hc

theorem strip_head_not_space (l : List Char) (c : Char) (t : List Char)
    (h : strip l = c :: t) : isPySpace c = false := by
  unfold strip at h
  have hX : ((l.dropWhile isPySpace).reverse).dropWhile isPySpace ≠ [] := by
    intro he
    rw [he] at h
    cases h
  have h2 : lastQ (((l.dropWhile isPySpace).reverse).dropWhile isPySpace) = some c := by
    unfold lastQ
    rw [h]
    rfl
  rw [lastQ_dropWhile _ _ hX, lastQ_reverse] at h2
  cases hA : l.dropWhile isPySpace with
  | nil => rw [hA] at h2; cases h2
  | cons a t2 =>
    rw [hA] at h2
    simp only [List.head?_cons, Option.some.injEq] at h2
    subst h2
    exact dropWhile_head_false _ _ _ _ hA

theorem strip_last_not_space (l : List Char) (c : Char)
    (h : lastQ (strip l) = some c) : isPySpace c = false := by
  unfold strip at h
  rw [lastQ_reverse] at h
  cases hX : ((l.dropWhile isPySpace).reverse).dropWhile isPySpace with
  | nil => rw [hX] at h; cases h
  | cons a t2 =>
    rw [hX] at h
    simp only [List.head?_cons, Option.some.injEq] at h
    subst h
    exact dropWhile_head_false _ _ _ _ hX

theorem strip_eq_self_of (l : List Char)
    (h1 : ∀ a, l.head? = some a → isPySpace a = false)
    (h2 : ∀ a, lastQ l = some a → isPySpace a = false) : strip l = l := by
  unfold strip
  rw [dropWhile_eq_self_of _ _ h1]
  rw [dropWhile_eq_self_of _ _ (fun a ha => h2 a ha)]
  exact List.reverse_reverse l

theorem strip_idem (l : List Char) : strip (strip l) = strip l := by
  cases h : strip l with
  | nil => rfl
  | cons c t =>
    apply strip_eq_self_of
    · intro a ha
      simp only [List.head?_cons, Option.some.injEq] at ha
      subst ha
      exact strip_head_not_space l _ _ h
    · intro a ha
      rw [← h] at ha
      exact strip_last_not_space l a ha

/-! ### Lemmas about `splitOnNL` and `joinSep` -/

theorem splitNL_ne_nil : ∀ s : List Char, splitOnNL s ≠ [] := by
  intro s
  cases s with
  | nil => simp [splitOnNL]
  | cons c r =>
    simp only [splitOnNL]
    by_cases h : c = '\n' <;> simp [h]

theorem no_nl_mem_splitOnNL : ∀ (s : List Char) (l : List Char),
    l ∈ splitOnNL s → '\n' ∉ l := by
  intro s
  induction s with
  | nil =>
    intro l hl
    simp [splitOnNL] at hl
    subst hl
    simp
  | cons c r ih =>
    intro l hl
    cases hs : splitOnNL r with
    | nil => exact absurd hs (splitNL_ne_nil r)
    | cons h0 t0 =>
      have hm0 : h0 ∈ splitOnNL r := by
        rw [hs]
        exact List.mem_cons_self h0 t0
      simp only [splitOnNL] at hl
      by_cases hc : c = '\n'
      · rw [if_pos hc] at hl
        rcases List.mem_cons.mp hl with rfl | hl2
        · simp
        · exact ih l hl2
      · rw [if_neg hc, hs] at hl
        simp only [List.headI, List.tail_cons] at hl
        rcases List.mem_cons.mp hl with rfl | hl2
        · intro hmem
          rcases List.mem_cons.mp hmem with h1 | h1
          · exact hc h1.symm
          · exact ih h0 hm0 h1
        · refine ih l ?_
          rw [hs]
          exact List.mem_cons_of_mem h0 hl2

theorem mem_joinSep (sep : List Char) (c : Char) :
    ∀ L : List (List Char), c ∈ joinSep sep L → c ∈ sep ∨ ∃ l, l ∈ L ∧ c ∈ l := by
  intro L
  induction L with
  | nil => intro h; simp [joinSep] at h
  | cons x xs ih =>
    intro h
    cases xs with
    | nil =>
      right
      exact ⟨x, List.mem_cons_self x [], by simpa [joinSep] using h⟩
    | cons y ys =>
      simp only [joinSep] at h
      rcases List.mem_append.mp h with h1 | h1
      · rcases List.mem_append.mp h1 with h2 | h2
        · right
          exact ⟨x, List.mem_cons_self x _, h2⟩
        · left
          exact h2
      · rcases ih h1 with h2 | ⟨l, hl, hcl⟩
        · left
          exact h2
        · right
          exact ⟨l, List.mem_cons_of_mem x hl, hcl⟩

theorem headQ_joinSep (sep : List Char) (x : List Char) (t : List (List Char)) (h : x ≠ []) :
    (joinSep sep (x :: t)).head? = x.head? := by
  cases t with
  | nil => rfl
  | cons y ys =>
    simp only [joinSep]
    rw [headQ_append (x ++ sep) _
        (by intro he; exact h (List.append_eq_nil.mp he).1),
      headQ_append x sep h]

theorem joinSep_ne_nil (sep : List Char) (x : List Char) (t : List (List Char)) (h : x ≠ []) :
    joinSep sep (x :: t) ≠ [] := by
  intro he
  have h2 := headQ_joinSep sep x t h
  rw [he] at h2
  cases x with
  | nil => exact h rfl
  | cons a t2 => simp at h2

theorem lastQ_joinSep_mem (sep : List Char) :
    ∀ L : List (List Char), (∀ l ∈ L, l ≠ []) → ∀ c, lastQ (joinSep sep L) = some c →
      ∃ l, l ∈ L ∧ lastQ l = some c := by
  intro L
  induction L with
  | nil =>
    intro _ c hc
    simp [joinSep, lastQ] at hc
  | cons x xs ih =>
    intro hne c hc
    cases xs with
    | nil => exact ⟨x, List.mem_cons_self x [], by simpa [joinSep] using hc⟩
    | cons y ys =>
      have hy : y ≠ [] := hne y (List.mem_cons_of_mem x (List.mem_cons_self y ys))
      have hJ : joinSep sep (y :: ys) ≠ [] := joinSep_ne_nil sep y ys hy
      simp only [joinSep] at hc
      rw [lastQ_append _ _ hJ] at hc
      rcases ih (fun l hl => hne l (List.mem_cons_of_mem x hl)) c hc with ⟨l, hl, hlast⟩
      exact ⟨l, List.mem_cons_of_mem x hl, hlast⟩

/-! ### Lemmas about `replaceDotSpace` -/

theorem headQ_replaceDotSpace : ∀ s : List Char, (replaceDotSpace s).head? = s.head? := by
  intro s
  match s with
  | [] => rfl
  | [c] => rfl
  | c :: d :: r =>
    simp only [replaceDotSpace]
    by_cases h : c = '.' ∧ d = ' '
    · rw [if_pos h]
      simp [h.1]
    · rw [if_neg h]
      simp

theorem replaceDotSpace_ne_nil (s : List Char) (h : s ≠ []) : replaceDotSpace s ≠ [] := by
  intro he
  have h2 := headQ_replaceDotSpace s
  rw [he] at h2
  cases s with
  | nil => exact h rfl
  | cons c r => simp at h2

theorem lastQ_replaceDotSpace : ∀ s : List Char, lastQ s ≠ some ' ' →
    lastQ (replaceDotSpace s) = lastQ s := by
  intro s
  induction s using replaceDotSpace.induct with
  | case1 => intro _; rfl
  | case2 c => intro _; rfl
  | case3 c d r h ih =>
    rcases h with ⟨rfl, rfl⟩
    intro hs
    cases r with
    | nil => exact absurd rfl hs
    | cons e r2 =>
      have hrw : replaceDotSpace ('.' :: ' ' :: e :: r2) =
          '.' :: '\n' :: '\n' :: replaceDotSpace (e :: r2) := by
        simp [replaceDotSpace]
      have hX : replaceDotSpace (e :: r2) ≠ [] := replaceDotSpace_ne_nil _ (by simp)
      have htr : lastQ ('.' :: ' ' :: e :: r2) = lastQ (e :: r2) :=
        lastQ_append ['.', ' '] (e :: r2) (by simp)
      rw [hrw]
      have h2 : lastQ ('.' :: '\n' :: '\n' :: replaceDotSpace (e :: r2)) =
          lastQ (replaceDotSpace (e :: r2)) :=
        lastQ_append ['.', '\n', '\n'] _ hX
      rw [h2, htr]
      exact ih (by rw [← htr]; exact hs)
  | case4 c d r h ih =>
    intro hs
    have hrw : replaceDotSpace (c :: d :: r) = c :: replaceDotSpace (d :: r) := by
      simp only [replaceDotSpace, if_neg h]
    have hX : replaceDotSpace (d :: r) ≠ [] := replaceDotSpace_ne_nil _ (by simp)
    have htr : lastQ (c :: d :: r) = lastQ (d :: r) :=
      lastQ_append [c] (d :: r) (by simp)
    rw [hrw]
    have h2 : lastQ (c :: replaceDotSpace (d :: r)) = lastQ (replaceDotSpace (d :: r)) :=
      lastQ_append [c] _ hX
    rw [h2, htr]
    exact ih (by rw [← htr]; exact hs)

theorem hasDotSpace_replaceDotSpace : ∀ s : List Char,
    hasDotSpace (replaceDotSpace s) = false := by
  intro s
  induction s using replaceDotSpace.induct with
  | case1 => rfl
  | case2 c => rfl
  | case3 c d r h ih =>
    rcases h with ⟨rfl, rfl⟩
    have hrw : replaceDotSpace ('.' :: ' ' :: r) =
        '.' :: '\n' :: '\n' :: replaceDotSpace r := by
      simp [replaceDotSpace]
    rw [hrw]
    cases hX : replaceDotSpace r with
    | nil => rfl
    | cons e X2 =>
      rw [hX] at ih
      show hasDotSpace ('.' :: '\n' :: '\n' :: e :: X2) = false
      simp only [hasDotSpace]
      have e1 : (('.' : Char) == '.') = true := rfl
      have e2 : (('\n' : Char) == ' ') = false := rfl
      have e3 : (('\n' : Char) == '.') = false := rfl
      simp [e1, e2, e3, ih]
  | case4 c d r h ih =>
    have hrw : replaceDotSpace (c :: d :: r) = c :: replaceDotSpace (d :: r) := by
      simp only [replaceDotSpace, if_neg h]
    rw [hrw]
    have hd : (replaceDotSpace (d :: r)).head? = some d := by
      rw [headQ_replaceDotSpace]
      rfl
    cases hX : replaceDotSpace (d :: r) with
    | nil => rw [hX] at hd; cases hd
    | cons e X2 =>
      rw [hX] at hd ih
      simp only [List.head?_cons, Option.some.injEq] at hd
      show hasDotSpace (c :: e :: X2) = false
      simp only [hasDotSpace]
      have hcd : (c == '.' && e == ' ') = false := by
        by_cases h1 : c = '.'
        · by_cases h2 : e = ' '
          · refine absurd ⟨h1, ?_⟩ h
            rw [← hd]
            exact h2
          · simp [h2]
        · simp [h1]
      simp [hcd, ih]

theorem hasDotSpace_iff : ∀ s : List Char,
    hasDotSpace s = true ↔ ∃ a b, s = a ++ '.' :: ' ' :: b := by
  intro s
  induction s using hasDotSpace.induct with
  | case1 =>
    simp only [hasDotSpace]
    constructor
    · intro h; cases h
    · rintro ⟨a, b, hab⟩
      cases a <;> simp at hab
  | case2 c =>
    simp only [hasDotSpace]
    constructor
    · intro h; cases h
    · rintro ⟨a, b, hab⟩
      cases a with
      | nil => simp at hab
      | cons a0 a1 =>
        simp only [List.cons_append, List.cons.injEq] at hab
        rcases hab with ⟨_, hab2⟩
        cases a1 <;> simp at hab2
  | case3 c d r ih =>
    simp only [hasDotSpace]
    constructor
    · intro h
      by_cases hc : c = '.'
      · by_cases hd : d = ' '
        · exact ⟨[], r, by simp [hc, hd]⟩
        · have hcd : (c == '.' && d == ' ') = false := by simp [hd]
          rw [hcd, Bool.false_or] at h
          rcases ih.mp h with ⟨a, b, hab⟩
          exact ⟨c :: a, b, by rw [List.cons_append, hab]⟩
      · have hcd : (c == '.' && d == ' ') = false := by simp [hc]
        rw [hcd, Bool.false_or] at h
        rcases ih.mp h with ⟨a, b, hab⟩
        exact ⟨c :: a, b, by rw [List.cons_append, hab]⟩
    · rintro ⟨a, b, hab⟩
      cases a with
      | nil =>
        simp only [List.nil_append, List.cons.injEq] at hab
        rcases hab with ⟨rfl, rfl, rfl⟩
        simp
      | cons a0 a1 =>
        simp only [List.cons_append, List.cons.injEq] at hab
        rcases hab with ⟨rfl, hab2⟩
        have h2 : hasDotSpace (d :: r) = true := ih.mpr ⟨a1, b, hab2⟩
        simp [h2]

/-! ### The segment structure of `replaceDotSpace` output -/

theorem segsRDS_ne_nil : ∀ s : List Char, segsRDS s ≠ [] := by
  intro s
  match s with
  | [] => simp [segsRDS]
  | [c] => simp [segsRDS]
  | c :: d :: r =>
    simp only [segsRDS]
    by_cases h : c = '.' ∧ d = ' ' <;> simp [h]

theorem segsRDS_head_cons (d : Char) (r : List Char) :
    ∃ a h t, segsRDS (d :: r) = (a :: h) :: t := by
  cases r with
  | nil => exact ⟨d, [], [], rfl⟩
  | cons e r2 =>
    by_cases h : d = '.' ∧ e = ' '
    · exact ⟨'.', [], [] :: segsRDS r2, by simp [segsRDS, h]⟩
    · exact ⟨d, (segsRDS (e :: r2)).headI, (segsRDS (e :: r2)).tail, by simp [segsRDS, h]⟩

theorem splitOnNL_cons_nl (r : List Char) : splitOnNL ('\n' :: r) = [] :: splitOnNL r := by
  simp [splitOnNL]

theorem splitOnNL_cons_of (c : Char) (r : List Char) (h : c ≠ '\n') :
    splitOnNL (c :: r) = (c :: (splitOnNL r).headI) :: (splitOnNL r).tail := by
  simp [splitOnNL, h]

/-- Splitting `replaceDotSpace j` on newlines recovers exactly the segments of
the newline-free string `j` around the rewritten `". "` occurrences. -/
theorem splitOnNL_replaceDotSpace : ∀ j : List Char, '\n' ∉ j →
    splitOnNL (replaceDotSpace j) = segsRDS j := by
  intro j
  induction j using replaceDotSpace.induct with
  | case1 => intro _; rfl
  | case2 c =>
    intro h
    have hc : ¬(c = '\n') := by
      intro he
      exact h (by rw [he]; exact List.mem_cons_self _ _)
    simp [replaceDotSpace, splitOnNL, segsRDS, hc]
  | case3 c d r h ih =>
    rcases h with ⟨rfl, rfl⟩
    intro hnl
    have hnr : '\n' ∉ r := fun hm => hnl (by simp [hm])
    have hrw : replaceDotSpace ('.' :: ' ' :: r) =
        '.' :: '\n' :: '\n' :: replaceDotSpace r := by
      simp [replaceDotSpace]
    have hsegs : segsRDS ('.' :: ' ' :: r) = ['.'] :: [] :: segsRDS r := by
      simp [segsRDS]
    rw [hrw, hsegs, splitOnNL_cons_of '.' _ (by decide), splitOnNL_cons_nl,
      splitOnNL_cons_nl, ih hnr]
    simp
  | case4 c d r h ih =>
    intro hnl
    have hnd : '\n' ∉ (d :: r) := fun hm => hnl (List.mem_cons_of_mem c hm)
    have hc : c ≠ '\n' := fun he => hnl (by rw [he]; exact List.mem_cons_self _ _)
    have hrw : replaceDotSpace (c :: d :: r) = c :: replaceDotSpace (d :: r) := by
      simp only [replaceDotSpace, if_neg h]
    have hsegs : segsRDS (c :: d :: r) =
        (c :: (segsRDS (d :: r)).headI) :: (segsRDS (d :: r)).tail := by
      simp only [segsRDS, if_neg h]
    rw [hrw, splitOnNL_cons_of c _ hc, ih hnd, hsegs]

/-- Dropping the empty segments and re-joining the rest with single spaces
reconstructs the original string, provided it does not end in a space. -/
theorem joinSep_filter_segsRDS : ∀ j : List Char, lastQ j ≠ some ' ' →
    joinSep [' '] ((segsRDS j).filter (fun l => !l.isEmpty)) = j := by
  intro j
  induction j using segsRDS.induct with
  | case1 => intro _; rfl
  | case2 c => intro _; rfl
  | case3 c d r h ih =>
    rcases h with ⟨rfl, rfl⟩
    intro hlast
    cases r with
    | nil => exact absurd rfl hlast
    | cons e r2 =>
      have htr : lastQ ('.' :: ' ' :: e :: r2) = lastQ (e :: r2) :=
        lastQ_append ['.', ' '] (e :: r2) (by simp)
      have hlr : lastQ (e :: r2) ≠ some ' ' := by
        rw [← htr]
        exact hlast
      have hih := ih hlr
      have hsegs : segsRDS ('.' :: ' ' :: e :: r2) = ['.'] :: [] :: segsRDS (e :: r2) := by
        simp [segsRDS]
      rw [hsegs]
      have hfil : (['.'] :: ([] : List Char) :: segsRDS (e :: r2)).filter
          (fun l => !l.isEmpty) =
          ['.'] :: (segsRDS (e :: r2)).filter (fun l => !l.isEmpty) := by
        simp [List.filter]
      rw [hfil]
      cases hF : (segsRDS (e :: r2)).filter (fun l => !l.isEmpty) with
      | nil =>
        rw [hF] at hih
        simp [joinSep] at hih
      | cons f fs =>
        rw [hF] at hih
        show joinSep [' '] (['.'] :: f :: fs) = '.' :: ' ' :: e :: r2
        simp only [joinSep]
        rw [hih]
        rfl
  | case4 c d r h ih =>
    intro hlast
    have htr : lastQ (c :: d :: r) = lastQ (d :: r) := lastQ_append [c] (d :: r) (by simp)
    have hlr : lastQ (d :: r) ≠ some ' ' := by
      rw [← htr]
      exact hlast
    have hih := ih hlr
    rcases segsRDS_head_cons d r with ⟨a, h0, t0, hs⟩
    have hsegs : segsRDS (c :: d :: r) = (c :: a :: h0) :: t0 := by
      simp only [segsRDS, if_neg h]
      rw [hs]
      simp
    rw [hsegs]
    rw [hs] at hih
    have hfil1 : ((a :: h0) :: t0).filter (fun l => !l.isEmpty) =
        (a :: h0) :: t0.filter (fun l => !l.isEmpty) := by
      simp [List.filter]
    rw [hfil1] at hih
    have hfil2 : ((c :: a :: h0) :: t0).filter (fun l => !l.isEmpty) =
        (c :: a :: h0) :: t0.filter (fun l => !l.isEmpty) := by
      simp [List.filter]
    rw [hfil2]
    cases hF : t0.filter (fun l => !l.isEmpty) with
    | nil =>
      rw [hF] at hih
      simp only [joinSep] at hih
      show joinSep [' '] [c :: a :: h0] = c :: d :: r
      simp only [joinSep]
      rw [hih]
    | cons f fs =>
      rw [hF] at hih
      simp only [joinSep] at hih ⊢
      rw [← hih]
      rfl

/-- Every segment of `replaceDotSpace j` is either empty or contains a
non-whitespace character, provided `j` does not end in whitespace. -/
theorem segsRDS_blank_or_content : ∀ j : List Char,
    (∀ a, lastQ j = some a → isPySpace a = false) →
    ∀ s ∈ segsRDS j, s = [] ∨ ∃ c, c ∈ s ∧ isPySpace c = false := by
  intro j
  induction j using segsRDS.induct with
  | case1 =>
    intro _ s hs
    left
    simpa [segsRDS] using hs
  | case2 c =>
    intro hl s hs
    right
    have hsc : s = [c] := by simpa [segsRDS] using hs
    subst hsc
    exact ⟨c, List.mem_cons_self _ _, hl c rfl⟩
  | case3 c d r h ih =>
    rcases h with ⟨rfl, rfl⟩
    intro hl s hs
    have hsegs : segsRDS ('.' :: ' ' :: r) = ['.'] :: [] :: segsRDS r := by
      simp [segsRDS]
    rw [hsegs] at hs
    rcases List.mem_cons.mp hs with rfl | hs2
    · right
      exact ⟨'.', List.mem_cons_self _ _, by decide⟩
    rcases List.mem_cons.mp hs2 with rfl | hs3
    · left
      rfl
    · refine ih ?_ s hs3
      intro a ha
      cases r with
      | nil => cases ha
      | cons e r2 =>
        have htr : lastQ ('.' :: ' ' :: e :: r2) = lastQ (e :: r2) :=
          lastQ_append ['.', ' '] (e :: r2) (by simp)
        apply hl
        rw [htr]
        exact ha
  | case4 c d r h ih =>
    intro hl s hs
    rcases segsRDS_head_cons d r with ⟨a0, h0, t0, hs0⟩
    have hsegs : segsRDS (c :: d :: r) = (c :: a0 :: h0) :: t0 := by
      simp only [segsRDS, if_neg h]
      rw [hs0]
      simp
    rw [hsegs] at hs
    have htr : lastQ (c :: d :: r) = lastQ (d :: r) := lastQ_append [c] (d :: r) (by simp)
    have hl2 : ∀ a, lastQ (d :: r) = some a → isPySpace a = false := by
      intro a ha
      apply hl
      rw [htr]
      exact ha
    rcases List.mem_cons.mp hs with rfl | hs2
    · by_cases hc : isPySpace c = false
      · right
        exact ⟨c, List.mem_cons_self _ _, hc⟩
      · have hmem : (a0 :: h0) ∈ segsRDS (d :: r) := by
          rw [hs0]
          exact List.mem_cons_self _ _
        rcases ih hl2 _ hmem with he | ⟨c2, hc2, hcs2⟩
        · simp at he
        · right
          exact ⟨c2, List.mem_cons_of_mem c hc2, hcs2⟩
    · refine ih hl2 s ?_
      rw [hs0]
      exact List.mem_cons_of_mem _ hs2

/-! ### Properties of `cleanLines` and the joined intermediate string -/

theorem cleanLines_mem (R : List Char) (l : List Char) (h : l ∈ cleanLines R) :
    l ≠ [] ∧ strip l = l ∧ '\n' ∉ l := by
  unfold cleanLines at h
  rcases List.mem_map.mp h with ⟨x, hx, rfl⟩
  rcases List.mem_filter.mp hx with ⟨hxs, hxf⟩
  refine ⟨?_, strip_idem x, ?_⟩
  · intro he
    rw [he] at hxf
    simp at hxf
  · intro hm
    exact no_nl_mem_splitOnNL R x hxs (mem_of_mem_strip _ _ hm)

theorem no_nl_join_cleanLines (R : List Char) : '\n' ∉ joinSep [' '] (cleanLines R) := by
  intro hm
  rcases mem_joinSep _ _ _ hm with h1 | ⟨l, hl, hcl⟩
  · simp at h1
  · exact (cleanLines_mem R l hl).2.2 hcl

theorem lastQ_join_cleanLines (R : List Char) (a : Char)
    (h : lastQ (joinSep [' '] (cleanLines R)) = some a) : isPySpace a = false := by
  have hne : ∀ l ∈ cleanLines R, l ≠ [] := fun l hl => (cleanLines_mem R l hl).1
  rcases lastQ_joinSep_mem _ _ hne a h with ⟨l, hl, hlast⟩
  have hstrip : strip l = l := (cleanLines_mem R l hl).2.1
  apply strip_last_not_space l a
  rw [hstrip]
  exact hlast

theorem lastQ_join_cleanLines_ne_space (R : List Char) :
    lastQ (joinSep [' '] (cleanLines R)) ≠ some ' ' := by
  intro hsp
  have h := lastQ_join_cleanLines R ' ' hsp
  simp [isPySpace] at h

/-- The output of the cleaner never contains the two-character substring
`". "`: the replacement removes every occurrence and inserts none. -/
theorem cleanResponse_no_dotspace_helper (R : List Char) (a b : List Char) :
    cleanResponse R ≠ a ++ '.' :: ' ' :: b := by
  intro hab
  have h := hasDotSpace_replaceDotSpace (joinSep [' '] (cleanLines R))
  have h2 : hasDotSpace (cleanResponse R) = true := (hasDotSpace_iff _).mpr ⟨a, b, hab⟩
  rw [show cleanResponse R = replaceDotSpace (joinSep [' '] (cleanLines R)) from rfl,
    h] at h2
  cases h2

theorem filter_congr_own {α : Type} (p q : α → Bool) :
    ∀ l : List α, (∀ x ∈ l, p x = q x) → l.filter p = l.filter q := by
  intro l
  induction l with
  | nil => intro _; rfl
  | cons a t ih =>
    intro h
    rw [List.filter_cons, List.filter_cons, h a (List.mem_cons_self a t),
      ih (fun x hx => h x (List.mem_cons_of_mem a hx))]

theorem map_id_own {α : Type} (f : α → α) :
    ∀ l : List α, (∀ x ∈ l, f x = x) → l.map f = l := by
  intro l
  induction l with
  | nil => intro _; rfl
  | cons a t ih =>
    intro h
    rw [List.map_cons, h a (List.mem_cons_self a t),
      ih (fun x hx => h x (List.mem_cons_of_mem a hx))]

theorem filterMap_strip_eq : ∀ xs : List (List Char),
    xs.filterMap (fun l => if (strip l).isEmpty then none else some (strip l)) =
    (xs.filter (fun l => !(strip l).isEmpty)).map strip := by
  intro xs
  induction xs with
  | nil => rfl
  | cons x t ih =>
    simp only [List.isEmpty_iff] at ih
    by_cases h2 : strip x = []
    · simp [List.filterMap_cons, List.filter_cons, h2, ih]
    · simp [List.filterMap_cons, List.filter_cons, h2, ih]

/-! ### Claim theorems about the response cleaner -/

/-- C1: for every raw string, `_clean_response` coincides with the cleaner as
worded by the specification (split on newlines, discard lines empty after
trimming, trim the rest, join with single spaces, replace `". "` by two
newlines), and on the golden input it returns exactly the golden output. -/
theorem clean_response_spec_and_golden :
    (∀ R : List Char, cleanResponse R = cleanSpec R) ∧
    cleanResponse ("This is a test response.\n        It has multiple lines.\n        And some extra spaces.   \n".toList) =
      "This is a test response.\n\nIt has multiple lines.\n\nAnd some extra spaces.".toList := by
  constructor
  · intro R
    unfold cleanResponse cleanSpec cleanLines
    rw [filterMap_strip_eq]
  · decide

/-- C10: for every input, the cleaner's output contains no occurrence of the
two-character substring `". "` (period followed by a single space). -/
theorem clean_output_no_dot_space :
    ∀ R a b : List Char, cleanResponse R ≠ a ++ '.' :: ' ' :: b :=
  fun R a b => cleanResponse_no_dotspace_helper R a b

/-- C3 (amended): the cleaner is idempotent on outputs that contain no `". "`
substring AND whose lines are all unchanged by trimming.  The extra condition
is needed: a line of the output may retain interior whitespace right after an
inserted paragraph break (see the counterexample), and re-cleaning removes it. -/
theorem clean_idempotent_on_trimmed_output (R : List Char)
    (_h1 : ∀ a b : List Char, cleanResponse R ≠ a ++ '.' :: ' ' :: b)
    (h2 : ∀ l ∈ splitOnNL (cleanResponse R), strip l = l) :
    cleanResponse (cleanResponse R) = cleanResponse R := by
  have hnl : '\n' ∉ joinSep [' '] (cleanLines R) := no_nl_join_cleanLines R
  have hsplit : splitOnNL (replaceDotSpace (joinSep [' '] (cleanLines R))) =
      segsRDS (joinSep [' '] (cleanLines R)) := splitOnNL_replaceDotSpace _ hnl
  have hlast := lastQ_join_cleanLines_ne_space R
  have h2' : ∀ l ∈ segsRDS (joinSep [' '] (cleanLines R)), strip l = l := by
    intro l hl
    apply h2
    show l ∈ splitOnNL (replaceDotSpace (joinSep [' '] (cleanLines R)))
    rw [hsplit]
    exact hl
  have key : cleanLines (cleanResponse R) =
      (segsRDS (joinSep [' '] (cleanLines R))).filter (fun l => !l.isEmpty) := by
    unfold cleanLines
    rw [show splitOnNL (cleanResponse R) =
        segsRDS (joinSep [' '] (cleanLines R)) from hsplit]
    rw [filter_congr_own _ _ _ (fun x hx => by rw [h2' x hx])]
    apply map_id_own
    intro x hx
    exact h2' x (List.mem_filter.mp hx).1
  calc cleanResponse (cleanResponse R)
      = replaceDotSpace (joinSep [' '] (cleanLines (cleanResponse R))) := rfl
    _ = replaceDotSpace (joinSep [' ']
          ((segsRDS (joinSep [' '] (cleanLines R))).filter (fun l => !l.isEmpty))) := by
        rw [key]
    _ = replaceDotSpace (joinSep [' '] (cleanLines R)) := by
        rw [joinSep_filter_segsRDS _ hlast]
    _ = cleanResponse R := rfl

/-- Witness for C3 (amended): at the concrete input `"Hello. World"` both
hypotheses hold and the theorem applies. -/
theorem clean_idempotent_on_trimmed_output_w :
    (∀ l ∈ splitOnNL (cleanResponse ("Hello. World".toList)), strip l = l) ∧
    cleanResponse (cleanResponse ("Hello. World".toList)) =
      cleanResponse ("Hello. World".toList) :=
  ⟨by decide,
    clean_idempotent_on_trimmed_output ("Hello. World".toList)
      (fun a b => cleanResponse_no_dotspace_helper _ a b) (by decide)⟩

/-- C3 counterexample: at `R = "a.  b"` (two spaces after the period) the
output is `"a.\n\n b"`, which contains no `". "` substring, yet cleaning it
again yields `"a.\n\nb"` — the original claim's side condition is not
sufficient for idempotence. -/
theorem clean_not_idempotent_cx :
    (∀ a b : List Char, cleanResponse ("a.  b".toList) ≠ a ++ '.' :: ' ' :: b) ∧
    cleanResponse (cleanResponse ("a.  b".toList)) ≠ cleanResponse ("a.  b".toList) := by
  constructor
  · intro a b
    exact cleanResponse_no_dotspace_helper _ a b
  · decide

/-- C4 (amended): the cleaner's output has no leading or trailing whitespace,
and every line of the output that is empty after trimming is literally the
empty line (the blank separator lines of the inserted `".\n\n"` paragraph
breaks).  The output may contain such empty separator lines, so the original
claim — no line at all is empty after trimming — does not hold. -/
theorem clean_no_edge_whitespace_and_blank_lines_empty (R : List Char) :
    strip (cleanResponse R) = cleanResponse R ∧
    ∀ l ∈ splitOnNL (cleanResponse R), strip l = [] → l = [] := by
  have hnl : '\n' ∉ joinSep [' '] (cleanLines R) := no_nl_join_cleanLines R
  have hsplit : splitOnNL (replaceDotSpace (joinSep [' '] (cleanLines R))) =
      segsRDS (joinSep [' '] (cleanLines R)) := splitOnNL_replaceDotSpace _ hnl
  constructor
  · cases hL : cleanLines R with
    | nil =>
      show strip (replaceDotSpace (joinSep [' '] (cleanLines R))) =
        replaceDotSpace (joinSep [' '] (cleanLines R))
      rw [hL]
      rfl
    | cons x xs =>
      have hmx : x ∈ cleanLines R := by
        rw [hL]
        exact List.mem_cons_self x xs
      have hx : x ≠ [] := (cleanLines_mem R x hmx).1
      have hxs : strip x = x := (cleanLines_mem R x hmx).2.1
      apply strip_eq_self_of
      · intro a ha
        rw [show cleanResponse R = replaceDotSpace (joinSep [' '] (cleanLines R)) from rfl,
          headQ_replaceDotSpace, hL, headQ_joinSep [' '] x xs hx] at ha
        cases hxc : x with
        | nil => exact absurd hxc hx
        | cons c t =>
          rw [hxc] at ha
          simp only [List.head?_cons, Option.some.injEq] at ha
          subst ha
          exact strip_head_not_space x c t (by rw [hxs]; exact hxc)
      · intro a ha
        rw [show cleanResponse R = replaceDotSpace (joinSep [' '] (cleanLines R)) from rfl,
          lastQ_replaceDotSpace _ (lastQ_join_cleanLines_ne_space R)] at ha
        exact lastQ_join_cleanLines R a ha
  · intro l hl hstrip
    rw [show cleanResponse R = replaceDotSpace (joinSep [' '] (cleanLines R)) from rfl,
      hsplit] at hl
    rcases segsRDS_blank_or_content _ (fun a ha => lastQ_join_cleanLines R a ha) l hl with
      he | ⟨c, hc, hcs⟩
    · exact he
    · exfalso
      have hm : c ∈ strip l := mem_strip_of_mem c l hc hcs
      rw [hstrip] at hm
      simp at hm

/-- Witness for C4 (amended): at `R = "a. b"` the blank separator line of the
output is the empty line, and the implication of the theorem applies to it. -/
theorem clean_no_edge_whitespace_and_blank_lines_empty_w :
    ([] : List Char) ∈ splitOnNL (cleanResponse ("a. b".toList)) ∧ ([] : List Char) = [] :=
  ⟨by decide,
    (clean_no_edge_whitespace_and_blank_lines_empty ("a. b".toList)).2 [] (by decide)
      (by decide)⟩

/-- C4 counterexample: for `R = "a. b"` the output is `"a.\n\nb"`, whose
middle line is empty — so it is false that `clean(R)` contains no line that is
empty after trimming. -/
theorem clean_blank_line_cx :
    ¬ (∀ l ∈ splitOnNL (cleanResponse ("a. b".toList)), strip l ≠ []) := by
  decide

/-! ### Claim theorems about the answer pipeline -/

/-- The mocked index of the specification's test scenario: every query
retrieves the single passage `"Ajax plays attacking football"`. -/
def mockSearch : List Char → Nat → List (List Char) :=
  fun _ _ => ["Ajax plays attacking football".toList]

/-- The mocked model of the specification's test scenario: every prompt gets
the reply `"Test response about Ajax tactics"`. -/
def mockInvoke : List Char → List Char :=
  fun _ => "Test response about Ajax tactics".toList

/-- The question of the specification's test scenario. -/
def mockQuestion : List Char := "How does Ajax play?".toList

/-- C2: `get_answer` performs exactly one similarity search with the given
question and `k`, formats the passages, renders the two-slot template, makes
exactly one model call with the rendered prompt, and returns the cleaned
reply; `k` defaults to 4 when omitted; on the mocked scenario the answer is a
non-empty string and the index was queried once with `k = 4`. -/
theorem get_answer_pipeline :
    (∀ (search : List Char → Nat → List (List Char)) (invoke : List Char → List Char)
        (q : List Char) (k : Nat),
      (getAnswerTraced search invoke q k).2.searchCalls = [(q, k)] ∧
      (getAnswerTraced search invoke q k).2.modelCalls =
        [renderPrompt (formatContext (search q k)) q] ∧
      (getAnswerTraced search invoke q k).1 =
        cleanResponse (invoke (renderPrompt (formatContext (search q k)) q))) ∧
    (∀ (search : List Char → Nat → List (List Char)) (invoke : List Char → List Char)
        (q : List Char),
      getAnswerDefaultK search invoke q = getAnswerTraced search invoke q 4) ∧
    ((getAnswerDefaultK mockSearch mockInvoke mockQuestion).1 ≠ [] ∧
      (getAnswerDefaultK mockSearch mockInvoke mockQuestion).2.searchCalls =
        [(mockQuestion, 4)]) := by
  refine ⟨fun search invoke q k => ⟨rfl, rfl, rfl⟩, fun search invoke q => rfl, ?_, rfl⟩
  decide

/-- C7: a failure of the similarity search, or of the model call, is relayed
unchanged by `get_answer` — no stage is retried and no fallback answer is
substituted. -/
theorem get_answer_error_propagation {ε : Type}
    (search : List Char → Nat → Except ε (List (List Char)))
    (invoke : List Char → Except ε (List Char)) (q : List Char) (k : Nat) (e : ε) :
    (search q k = Except.error e → getAnswerExc search invoke q k = Except.error e) ∧
    (∀ docs, search q k = Except.ok docs →
      invoke (renderPrompt (formatContext docs) q) = Except.error e →
      getAnswerExc search invoke q k = Except.error e) := by
  constructor
  · intro h
    unfold getAnswerExc
    rw [h]
  · intro docs h1 h2
    unfold getAnswerExc
    rw [h1]
    show (match invoke (renderPrompt (formatContext docs) q) with
      | Except.error e => Except.error e
      | Except.ok response => Except.ok (cleanResponse response)) = Except.error e
    rw [h2]

/-- Witness for C7: a failing index call and a failing model call, each with
a distinguishable error value, propagate to the caller unchanged. -/
theorem get_answer_error_propagation_w :
    getAnswerExc (fun _ _ => Except.error (0 : Nat)) (fun _ => Except.ok [])
        ([] : List Char) 4 = Except.error 0 ∧
    getAnswerExc (fun _ _ => Except.ok []) (fun _ => Except.error (1 : Nat))
        ([] : List Char) 4 = Except.error 1 :=
  ⟨(get_answer_error_propagation _ _ _ _ _).1 rfl,
    (get_answer_error_propagation _ _ _ _ _).2 [] rfl rfl⟩

/-- C8: zero retrieved passages is not an error — the context formats to the
empty string and the pipeline still renders the prompt, calls the model and
returns the cleaned reply. -/
theorem get_answer_empty_retrieval {ε : Type}
    (search : List Char → Nat → Except ε (List (List Char)))
    (invoke : List Char → Except ε (List Char)) (q : List Char) (k : Nat) (r : List Char)
    (h1 : search q k = Except.ok [])
    (h2 : invoke (renderPrompt [] q) = Except.ok r) :
    formatContext [] = [] ∧
    getAnswerExc search invoke q k = Except.ok (cleanResponse r) := by
  refine ⟨rfl, ?_⟩
  simp [getAnswerExc, h1, show formatContext ([] : List (List Char)) = [] from rfl, h2]

/-- Witness for C8: concrete collaborators with an empty retrieval result. -/
theorem get_answer_empty_retrieval_w :
    formatContext [] = [] ∧
    @getAnswerExc Nat (fun _ _ => Except.ok ([] : List (List Char)))
        (fun _ => Except.ok (['h'] : List Char)) ([] : List Char) 4 =
      Except.ok (cleanResponse ['h']) :=
  get_answer_empty_retrieval _ _ _ _ _ rfl rfl

/-- C9: the rendered prompt contains the context and the question as verbatim,
untruncated substrings. -/
theorem render_prompt_contains_verbatim (c q : List Char) :
    (∃ a b, renderPrompt c q = a ++ c ++ b) ∧
    (∃ a b, renderPrompt c q = a ++ q ++ b) := by
  constructor
  · exact ⟨templatePre, templateMid ++ q ++ templateSuf,
      by simp [renderPrompt, List.append_assoc]⟩
  · exact ⟨templatePre ++ c ++ templateMid, templateSuf,
      by simp [renderPrompt, List.append_assoc]⟩

/-! ### Substring occurrence machinery for the `"Source "` labels -/

theorem startsWith_self_append : ∀ x y : List Char, startsWith x (x ++ y) = true := by
  intro x
  induction x with
  | nil => intro y; rfl
  | cons c p ih =>
    intro y
    show (c == c && startsWith p (p ++ y)) = true
    rw [ih y]
    simp

theorem startsWith_length_le : ∀ (pat s : List Char), startsWith pat s = true →
    pat.length ≤ s.length := by
  intro pat
  induction pat with
  | nil => intro s _; simp
  | cons c p ih =>
    intro s h
    cases s with
    | nil => simp [startsWith] at h
    | cons d t =>
      simp only [startsWith, Bool.and_eq_true] at h
      have h3 := ih t h.2
      simp only [List.length_cons]
      omega

theorem startsWith_append_nl : ∀ (a pat b : List Char), '\n' ∉ pat →
    startsWith pat (a ++ '\n' :: b) = startsWith pat a := by
  intro a
  induction a with
  | nil =>
    intro pat b hnl
    cases pat with
    | nil => rfl
    | cons p ps =>
      have hp : p ≠ '\n' := fun he => hnl (by rw [he]; exact List.mem_cons_self _ _)
      have hb : (p == '\n') = false := beq_eq_false_iff_ne.mpr hp
      simp [startsWith, hb]
  | cons c a2 ih =>
    intro pat b hnl
    cases pat with
    | nil => rfl
    | cons p ps =>
      show (p == c && startsWith ps (a2 ++ '\n' :: b)) = (p == c && startsWith ps a2)
      rw [ih ps b (fun hm => hnl (List.mem_cons_of_mem p hm))]

theorem drop_append_of_le (y : List Char) : ∀ (n : Nat) (x : List Char), n ≤ x.length →
    List.drop n (x ++ y) = List.drop n x ++ y := by
  intro n
  induction n with
  | zero => intro x _; rfl
  | succ m ih =>
    intro x h
    cases x with
    | nil => simp at h
    | cons c t =>
      simp only [List.cons_append, List.drop_succ_cons]
      refine ih t ?_
      simp only [List.length_cons] at h
      omega

theorem occAfter_append_nl (pat : List Char) (hne : pat ≠ []) (hnl : '\n' ∉ pat) :
    ∀ (a b : List Char),
      occAfter pat (a ++ '\n' :: b) =
      (occAfter pat a).map (fun s => s ++ '\n' :: b) ++ occAfter pat b := by
  intro a
  induction a with
  | nil =>
    intro b
    cases pat with
    | nil => exact absurd rfl hne
    | cons p ps =>
      have hp : p ≠ '\n' := fun he => hnl (by rw [he]; exact List.mem_cons_self _ _)
      have hb : (p == '\n') = false := beq_eq_false_iff_ne.mpr hp
      simp [occAfter, startsWith, hb]
  | cons c a2 ih =>
    intro b
    have hsw : startsWith pat (c :: (a2 ++ '\n' :: b)) = startsWith pat (c :: a2) :=
      startsWith_append_nl (c :: a2) pat b hnl
    rw [show (c :: a2) ++ '\n' :: b = c :: (a2 ++ '\n' :: b) from rfl]
    simp only [occAfter]
    rw [hsw, ih b]
    by_cases h : startsWith pat (c :: a2) = true
    · rw [if_pos h, if_pos h]
      have hlen : pat.length ≤ (c :: a2).length := startsWith_length_le pat (c :: a2) h
      have hdrop : List.drop pat.length (c :: (a2 ++ '\n' :: b)) =
          List.drop pat.length (c :: a2) ++ '\n' :: b :=
        drop_append_of_le ('\n' :: b) pat.length (c :: a2) hlen
      rw [hdrop]
      simp
    · rw [if_neg h, if_neg h]

theorem occAfter_no_head_char (p : Char) (ps : List Char) :
    ∀ s : List Char, (∀ c ∈ s, c ≠ p) → occAfter (p :: ps) s = [] := by
  intro s
  induction s with
  | nil => intro _; rfl
  | cons c r ih =>
    intro h
    have hc : c ≠ p := h c (List.mem_cons_self c r)
    have hb : (p == c) = false := beq_eq_false_iff_ne.mpr (fun he => hc he.symm)
    simp only [occAfter, startsWith, hb, Bool.false_and]
    rw [if_neg (by simp)]
    exact ih (fun x hx => h x (List.mem_cons_of_mem c hx))

theorem countOcc_eq_length_occAfter (pat : List Char) :
    ∀ s : List Char, countOcc pat s = (occAfter pat s).length := by
  intro s
  induction s with
  | nil => rfl
  | cons c r ih =>
    simp only [countOcc, occAfter]
    by_cases h : startsWith pat (c :: r) = true
    · rw [if_pos h, if_pos h]
      simp only [List.length_cons, ih]
      omega
    · rw [if_neg h, if_neg h]
      simp [ih]

theorem digitChar_mem (n : Nat) :
    digitChar n ∈ ['0', '1', '2', '3', '4', '5', '6', '7', '8', '9'] := by
  have h : n % 10 < 10 := Nat.mod_lt n (by decide)
  unfold digitChar
  revert h
  generalize n % 10 = m
  intro h
  interval_cases m <;> decide

theorem numReprAux_mem : ∀ (fuel n : Nat) (c : Char), c ∈ numReprAux fuel n →
    c ∈ ['0', '1', '2', '3', '4', '5', '6', '7', '8', '9'] := by
  intro fuel
  induction fuel with
  | zero => intro n c hc; simp [numReprAux] at hc
  | succ f ih =>
    intro n c hc
    simp only [numReprAux] at hc
    by_cases h : n < 10
    · rw [if_pos h] at hc
      simp only [List.mem_singleton] at hc
      subst hc
      exact digitChar_mem n
    · rw [if_neg h] at hc
      rcases List.mem_append.mp hc with h1 | h1
      · exact ih (n / 10) c h1
      · simp only [List.mem_singleton] at h1
        subst h1
        exact digitChar_mem n

theorem numRepr_ne_S (n : Nat) : ∀ c ∈ numRepr n, c ≠ 'S' := by
  intro c hc he
  have h := numReprAux_mem (n + 1) n c hc
  rw [he] at h
  exact absurd h (by decide)

/-- One-step unfolding of `occAfter` on a nonempty string. -/
theorem occAfter_cons (pat : List Char) (c : Char) (r : List Char) :
    occAfter pat (c :: r) =
    if startsWith pat (c :: r) = true then
      List.drop pat.length (c :: r) :: occAfter pat r
    else occAfter pat r := rfl

/-- The only occurrence of `"Source "` in `"Source " ++ x` is the one at the
head, when `x` itself contains no `'S'`. -/
theorem occAfter_marker_self (x : List Char) (hx : ∀ c ∈ x, c ≠ 'S') :
    occAfter srcMarker (srcMarker ++ x) = [x] := by
  have h1 : startsWith srcMarker ('S' :: (['o', 'u', 'r', 'c', 'e', ' '] ++ x)) = true :=
    startsWith_self_append srcMarker x
  have h2 : List.drop srcMarker.length ('S' :: (['o', 'u', 'r', 'c', 'e', ' '] ++ x)) = x :=
    rfl
  have hmem : ∀ c ∈ ['o', 'u', 'r', 'c', 'e', ' '] ++ x, c ≠ 'S' := by
    intro c hc
    rcases List.mem_append.mp hc with h | h
    · fin_cases h <;> decide
    · exact hx c h
  have h3 : occAfter srcMarker (['o', 'u', 'r', 'c', 'e', ' '] ++ x) = [] :=
    occAfter_no_head_char 'S' ['o', 'u', 'r', 'c', 'e', ' '] _ hmem
  show occAfter srcMarker ('S' :: (['o', 'u', 'r', 'c', 'e', ' '] ++ x)) = [x]
  rw [occAfter_cons, h1, if_pos rfl, h2, h3]

/-! ### The `formatContext` claim theorems -/

theorem fmtEntries_eq_enumFrom : ∀ (ds : List (List Char)) (m : Nat),
    (List.enumFrom m ds).map
      (fun p => "Source ".toList ++ numRepr (p.1 + 1) ++ ":\n".toList ++ p.2) =
    fmtEntries m ds := by
  intro ds
  induction ds with
  | nil => intro m; rfl
  | cons d t ih =>
    intro m
    simp only [List.enumFrom, List.map_cons, fmtEntries]
    rw [ih (m + 1)]

theorem formatContext_eq_fmtEntries (P : List (List Char)) :
    formatContext P = joinSep ("\n\n".toList) (fmtEntries 0 P) := by
  unfold formatContext
  rw [show P.enum = List.enumFrom 0 P from rfl, fmtEntries_eq_enumFrom]

/-- The suffixes after the `"Source "` occurrences in a formatted context
whose passages contain no occurrence themselves: exactly one occurrence per
entry, and the `k`-th is followed by the decimal number `m + k + 1` and a
colon. -/
theorem occAfter_fmtEntries : ∀ (ds : List (List Char)) (m : Nat),
    (∀ d ∈ ds, occAfter srcMarker d = []) →
    (occAfter srcMarker (joinSep ['\n', '\n'] (fmtEntries m ds))).length = ds.length ∧
    (∀ k, k < ds.length →
      startsWith (numRepr (m + k + 1) ++ [':'])
        ((occAfter srcMarker (joinSep ['\n', '\n'] (fmtEntries m ds))).getD k []) = true) := by
  intro ds
  induction ds with
  | nil =>
    intro m _
    exact ⟨rfl, fun k hk => by simp at hk⟩
  | cons d ds2 ih =>
    intro m hclean
    have hd : occAfter srcMarker d = [] := hclean d (List.mem_cons_self d ds2)
    have hnum : ∀ c ∈ numRepr (m + 1) ++ [':'], c ≠ 'S' := by
      intro c hc
      rcases List.mem_append.mp hc with h | h
      · exact numRepr_ne_S (m + 1) c h
      · simp only [List.mem_singleton] at h
        subst h
        decide
    have hmarker_ne : srcMarker ≠ [] := by decide
    have hmarker_nl : '\n' ∉ srcMarker := by decide
    have hsm : "Source ".toList = srcMarker := rfl
    have hcn : ":\n".toList = [':', '\n'] := rfl
    cases ds2 with
    | nil =>
      have hshape : joinSep ['\n', '\n'] (fmtEntries m [d]) =
          (srcMarker ++ (numRepr (m + 1) ++ [':'])) ++ '\n' :: d := by
        show "Source ".toList ++ numRepr (m + 1) ++ ":\n".toList ++ d =
          (srcMarker ++ (numRepr (m + 1) ++ [':'])) ++ '\n' :: d
        simp [hsm, hcn, srcMarker, List.append_assoc]
      rw [hshape,
        occAfter_append_nl srcMarker hmarker_ne hmarker_nl
          (srcMarker ++ (numRepr (m + 1) ++ [':'])) d,
        occAfter_marker_self _ hnum, hd]
      constructor
      · rfl
      · intro k hk
        have hk0 : k = 0 := by
          simp only [List.length_cons, List.length_nil] at hk
          omega
        subst hk0
        simp only [Nat.add_zero, List.map_cons, List.map_nil, List.append_nil,
          List.getD_cons_zero]
        exact startsWith_self_append (numRepr (m + 1) ++ [':']) ('\n' :: d)
    | cons d2 ds3 =>
      have hrest := ih (m + 1) (fun x hx => hclean x (List.mem_cons_of_mem d hx))
      have hshape : joinSep ['\n', '\n'] (fmtEntries m (d :: d2 :: ds3)) =
          (srcMarker ++ (numRepr (m + 1) ++ [':'])) ++
            '\n' :: (d ++ '\n' :: ('\n' ::
              joinSep ['\n', '\n'] (fmtEntries (m + 1) (d2 :: ds3)))) := by
        show ("Source ".toList ++ numRepr (m + 1) ++ ":\n".toList ++ d) ++ ['\n', '\n'] ++
            joinSep ['\n', '\n'] (fmtEntries (m + 1) (d2 :: ds3)) =
          (srcMarker ++ (numRepr (m + 1) ++ [':'])) ++
            '\n' :: (d ++ '\n' :: ('\n' ::
              joinSep ['\n', '\n'] (fmtEntries (m + 1) (d2 :: ds3))))
        simp [hsm, hcn, srcMarker, List.append_assoc]
      have hnlstep : occAfter srcMarker
          ('\n' :: joinSep ['\n', '\n'] (fmtEntries (m + 1) (d2 :: ds3))) =
          occAfter srcMarker (joinSep ['\n', '\n'] (fmtEntries (m + 1) (d2 :: ds3))) := by
        have hsw : startsWith srcMarker
            ('\n' :: joinSep ['\n', '\n'] (fmtEntries (m + 1) (d2 :: ds3))) = false := by
          show (('S' == '\n') &&
            startsWith ['o', 'u', 'r', 'c', 'e', ' ']
              (joinSep ['\n', '\n'] (fmtEntries (m + 1) (d2 :: ds3)))) = false
          rw [show (('S' : Char) == '\n') = false from rfl]
          simp
        rw [occAfter_cons, hsw]
        simp
      rw [hshape,
        occAfter_append_nl srcMarker hmarker_ne hmarker_nl
          (srcMarker ++ (numRepr (m + 1) ++ [':'])) _,
        occAfter_marker_self _ hnum,
        occAfter_append_nl srcMarker hmarker_ne hmarker_nl d _,
        hd, hnlstep]
      constructor
      · simp only [List.map_cons, List.map_nil, List.length_append, List.length_cons,
          List.length_nil]
        rw [hrest.1]
        simp [List.length_cons]
        omega
      · intro k hk
        cases k with
        | zero =>
          simp only [Nat.add_zero, List.map_cons, List.map_nil, List.nil_append,
            List.cons_append, List.getD_cons_zero]
          exact startsWith_self_append (numRepr (m + 1) ++ [':']) _
        | succ k2 =>
          have hk2 : k2 < (d2 :: ds3).length := by
            simp only [List.length_cons] at hk ⊢
            omega
          have hres := hrest.2 k2 hk2
          have he : m + 1 + k2 + 1 = m + (k2 + 1) + 1 := by omega
          rw [he] at hres
          simp only [List.map_cons, List.map_nil, List.nil_append, List.cons_append,
            List.getD_cons_succ]
          exact hres

/-- C5: `_format_context` equals the per-index construction as the spec words
it (the 0-based position `i` yields `"Source {i+1}:\n{content}"`, entries
joined by a blank line, contents inserted verbatim); it maps the empty
sequence to the empty string; and on the two golden documents it produces
exactly the golden output. -/
theorem format_context_spec_and_golden :
    (∀ P : List (List Char), formatContext P = joinSep ("\n\n".toList) (fmtEntries 0 P)) ∧
    formatContext [] = [] ∧
    formatContext ["Test content 1".toList, "Test content 2".toList] =
      "Source 1:\nTest content 1\n\nSource 2:\nTest content 2".toList := by
  refine ⟨formatContext_eq_fmtEntries, rfl, ?_⟩
  decide

/-- C6 (amended): if no passage content contains the substring `"Source "`,
then `formatContext P` contains exactly `P.length` occurrences of `"Source "`,
and the `k`-th occurrence (0-based) is followed by the decimal number `k + 1`
and a colon — the occurrences are numbered 1..len(P) in order.  The
restriction is needed: contents are inserted verbatim, so a passage containing
the label itself contributes extra occurrences (see the counterexample). -/
theorem format_context_source_count (P : List (List Char))
    (h : ∀ d ∈ P, countOcc ("Source ".toList) d = 0) :
    countOcc ("Source ".toList) (formatContext P) = P.length ∧
    ∀ k, k < P.length →
      startsWith (numRepr (k + 1) ++ [':'])
        ((occAfter ("Source ".toList) (formatContext P)).getD k []) = true := by
  have hsm : "Source ".toList = srcMarker := rfl
  have h2 : ∀ d ∈ P, occAfter srcMarker d = [] := by
    intro d hd
    have h3 := h d hd
    rw [hsm, countOcc_eq_length_occAfter] at h3
    exact List.length_eq_zero.mp h3
  have hmain := occAfter_fmtEntries P 0 h2
  constructor
  · rw [hsm, countOcc_eq_length_occAfter, formatContext_eq_fmtEntries,
      show ("\n\n".toList) = ['\n', '\n'] from rfl]
    exact hmain.1
  · intro k hk
    have hres := hmain.2 k hk
    rw [show (0 : Nat) + k + 1 = k + 1 from by omega] at hres
    rw [hsm, formatContext_eq_fmtEntries, show ("\n\n".toList) = ['\n', '\n'] from rfl]
    exact hres

/-- Witness for C6 (amended): two concrete passages free of the label. -/
theorem format_context_source_count_w :
    (∀ d ∈ [("abc".toList : List Char), "xyz".toList],
      countOcc ("Source ".toList) d = 0) ∧
    (countOcc ("Source ".toList) (formatContext ["abc".toList, "xyz".toList]) =
        (["abc".toList, "xyz".toList] : List (List Char)).length ∧
      ∀ k, k < (["abc".toList, "xyz".toList] : List (List Char)).length →
        startsWith (numRepr (k + 1) ++ [':'])
          ((occAfter ("Source ".toList)
            (formatContext ["abc".toList, "xyz".toList])).getD k []) = true) :=
  ⟨by decide, format_context_source_count _ (by decide)⟩

/-- C6 counterexample: a single passage whose content is the label itself
yields two occurrences of `"Source "` in the formatted context, not one — the
exact-count claim fails for arbitrary verbatim contents. -/
theorem format_context_source_count_cx :
    ¬ (countOcc ("Source ".toList) (formatContext [("Source ".toList : List Char)]) =
      ([("Source ".toList : List Char)] : List (List Char)).length) := by
  decide
